import Mathlib

/-!
Shallow embedding of `src/rag_pipeline.py` (class `RAGSystem`) and proofs about it.
Python strings are modelled as `List Char` over ASCII; Python text primitives
(`str.lower`, `str.split`, `str.strip`, `' '.join`, substring `in`) are embedded
as executable Lean functions, and each method of the pipeline is translated directly
from the source.
-/

/-- Python whitespace set used by `str.split()` / `str.strip()` / regex `\s`
(ASCII part: tab 9, newline 10, vertical tab 11, form feed 12, carriage return 13,
space 32). -/
def pySpace (c : Char) : Bool :=
  c.toNat == 32 || (9 ≤ c.toNat && c.toNat ≤ 13)

/-- Python `string.punctuation`: ASCII codes 33-47, 58-64, 91-96, 123-126. -/
def pyPunct (c : Char) : Bool :=
  (33 ≤ c.toNat && c.toNat ≤ 47) || (58 ≤ c.toNat && c.toNat ≤ 64) ||
    (91 ≤ c.toNat && c.toNat ≤ 96) || (123 ≤ c.toNat && c.toNat ≤ 126)

/-- ASCII lowercasing of one character, modelling Python `str.lower`. -/
def pyLower (c : Char) : Char :=
  if 65 ≤ c.toNat ∧ c.toNat ≤ 90 then Char.ofNat (c.toNat + 32) else c

/-- Python `str.lower` on a whole string. -/
def pyLowerS (s : List Char) : List Char := s.map pyLower

/-- ASCII digit, modelling regex `\d`. -/
def pyDigit (c : Char) : Bool := 48 ≤ c.toNat && c.toNat ≤ 57

/-- Split a string at every single whitespace character, keeping empty pieces
(helper for Python `str.split()`). -/
def splitEvery : List Char → List (List Char)
  | [] => [[]]
  | c :: cs =>
    if pySpace c then [] :: splitEvery cs
    else
      match splitEvery cs with
      | [] => [[c]]
      | w :: r => (c :: w) :: r

/-- Python `s.split()` (no argument): the maximal runs of non-whitespace characters. -/
def splitWs (s : List Char) : List (List Char) :=
  (splitEvery s).filter (fun w => !w.isEmpty)

/-- Python `len(s.split())`: the number of words of `s`. -/
def wc (s : List Char) : Nat := (splitWs s).length

/-- Python `' '.join(parts)`. -/
def joinSpace : List (List Char) → List Char
  | [] => []
  | [s] => s
  | s :: t :: r => s ++ ' ' :: joinSpace (t :: r)

/-- Strip characters satisfying `p` from both ends (Python `str.strip(chars)`). -/
def pyStripWith (p : Char → Bool) (s : List Char) : List Char :=
  ((s.dropWhile p).reverse.dropWhile p).reverse

/-- Python `s.strip()` (whitespace). -/
def pyStrip (s : List Char) : List Char := pyStripWith pySpace s

/-- Python `s.strip(string.punctuation)`. -/
def pyStripPunct (s : List Char) : List Char := pyStripWith pyPunct s

/-- `RAGSystem.preprocess_text`: lowercase, delete all punctuation characters,
collapse whitespace runs to single spaces (`' '.join(text.split())`). -/
def preprocess_text (text : List Char) : List Char :=
  joinSpace (splitWs ((pyLowerS text).filter (fun c => !pyPunct c)))

/-! ### Basic lemmas about the character and word primitives -/

theorem char_toNat_ofNat {n : Nat} (h : n.isValidChar) : (Char.ofNat n).toNat = n := by
  simp only [Char.ofNat, h, dif_pos, Char.ofNatAux, Char.toNat, Nat.toUInt32, UInt32.ofNat,
    UInt32.toNat]
  simp only [BitVec.toNat_ofNatLt]

theorem pyLower_toNat_of_upper {c : Char} (h : 65 ≤ c.toNat ∧ c.toNat ≤ 90) :
    (pyLower c).toNat = c.toNat + 32 := by
  unfold pyLower
  rw [if_pos h]
  exact char_toNat_ofNat (Or.inl (by omega))

theorem pyLower_notUpper (c : Char) : ¬(65 ≤ (pyLower c).toNat ∧ (pyLower c).toNat ≤ 90) := by
  by_cases h : 65 ≤ c.toNat ∧ c.toNat ≤ 90
  · have h2 : (pyLower c).toNat = c.toNat + 32 := pyLower_toNat_of_upper h
    omega
  · rw [pyLower, if_neg h]
    exact h

theorem pyLower_idem (c : Char) : pyLower (pyLower c) = pyLower c := by
  show (if 65 ≤ (pyLower c).toNat ∧ (pyLower c).toNat ≤ 90 then
      Char.ofNat ((pyLower c).toNat + 32) else pyLower c) = pyLower c
  rw [if_neg (pyLower_notUpper c)]

theorem splitEvery_ne_nil (s : List Char) : splitEvery s ≠ [] := by
  induction s with
  | nil => simp [splitEvery]
  | cons c cs ih =>
    unfold splitEvery
    by_cases h : pySpace c
    · simp [h]
    · simp only [h]
      cases hs : splitEvery cs with
      | nil => simp
      | cons w r => simp

theorem mem_splitEvery_sub {s : List Char} {g : List Char} (hg : g ∈ splitEvery s) :
    ∀ c ∈ g, c ∈ s ∧ pySpace c = false := by
  induction s generalizing g with
  | nil =>
    simp only [splitEvery, List.mem_singleton] at hg
    subst hg
    intro c hc
    simp at hc
  | cons a cs ih =>
    unfold splitEvery at hg
    by_cases h : pySpace a
    · simp only [h, if_true, List.mem_cons] at hg
      rcases hg with hg | hg
      · subst hg; intro c hc; simp at hc
      · intro c hc
        obtain ⟨h1, h2⟩ := ih hg c hc
        exact ⟨List.mem_cons_of_mem _ h1, h2⟩
    · simp only [h, if_false, Bool.false_eq_true] at hg
      cases hs : splitEvery cs with
      | nil => exact absurd hs (splitEvery_ne_nil cs)
      | cons w r =>
        rw [hs, List.mem_cons] at hg
        rcases hg with hg | hg
        · subst hg
          intro c hc
          rcases List.mem_cons.mp hc with hc | hc
          · subst hc
            exact ⟨List.mem_cons_self _ _, by simpa using h⟩
          · obtain ⟨h1, h2⟩ := ih (hs ▸ List.mem_cons_self w r) c hc
            exact ⟨List.mem_cons_of_mem _ h1, h2⟩
        · intro c hc
          obtain ⟨h1, h2⟩ := ih (hs ▸ List.mem_cons_of_mem w hg) c hc
          exact ⟨List.mem_cons_of_mem _ h1, h2⟩

theorem splitWs_sub {s : List Char} {w : List Char} (hw : w ∈ splitWs s) :
    w ≠ [] ∧ ∀ c ∈ w, c ∈ s ∧ pySpace c = false := by
  unfold splitWs at hw
  rw [List.mem_filter] at hw
  refine ⟨by simpa using hw.2, fun c hc => mem_splitEvery_sub hw.1 c hc⟩

theorem splitEvery_append_space {c : Char} (hc : pySpace c = true) (x y : List Char) :
    splitEvery (x ++ c :: y) = splitEvery x ++ splitEvery y := by
  induction x with
  | nil =>
    simp only [List.nil_append, splitEvery, hc, if_true]
    rfl
  | cons a x ih =>
    rw [List.cons_append]
    cases h : pySpace a with
    | true =>
      simp only [splitEvery, h, if_true, ih]
      rfl
    | false =>
      cases hs : splitEvery x with
      | nil => exact absurd hs (splitEvery_ne_nil x)
      | cons w r =>
        simp only [splitEvery, h, Bool.false_eq_true, if_false, ih, hs, List.cons_append]

theorem splitEvery_no_space {w : List Char} (hw : ∀ c ∈ w, pySpace c = false) :
    splitEvery w = [w] := by
  induction w with
  | nil => rfl
  | cons a x ih =>
    unfold splitEvery
    have ha : pySpace a = false := hw a (List.mem_cons_self _ _)
    simp only [ha, Bool.false_eq_true, if_false]
    rw [ih (fun c hc => hw c (List.mem_cons_of_mem _ hc))]

theorem splitWs_append_space {c : Char} (hc : pySpace c = true) (x y : List Char) :
    splitWs (x ++ c :: y) = splitWs x ++ splitWs y := by
  unfold splitWs
  rw [splitEvery_append_space hc, List.filter_append]

theorem wc_append_space {c : Char} (hc : pySpace c = true) (x y : List Char) :
    wc (x ++ c :: y) = wc x + wc y := by
  unfold wc
  rw [splitWs_append_space hc, List.length_append]

theorem splitWs_no_space {w : List Char} (hne : w ≠ [])
    (hw : ∀ c ∈ w, pySpace c = false) : splitWs w = [w] := by
  unfold splitWs
  rw [splitEvery_no_space hw]
  simp [hne]

/-- A list of words is *clean* when every word is non-empty and whitespace-free. -/
def CleanWords (ws : List (List Char)) : Prop :=
  ∀ w ∈ ws, w ≠ [] ∧ ∀ c ∈ w, pySpace c = false

theorem splitWs_clean (s : List Char) : CleanWords (splitWs s) :=
  fun _ hw => ⟨(splitWs_sub hw).1, fun c hc => ((splitWs_sub hw).2 c hc).2⟩

theorem splitWs_joinSpace {ws : List (List Char)} (h : CleanWords ws) :
    splitWs (joinSpace ws) = ws := by
  induction ws with
  | nil =>
    simp [joinSpace, splitWs, splitEvery]
  | cons w ws ih =>
    cases ws with
    | nil =>
      obtain ⟨h1, h2⟩ := h w (List.mem_cons_self _ _)
      simpa [joinSpace] using splitWs_no_space h1 h2
    | cons t r =>
      have hw := h w (List.mem_cons_self _ _)
      have hrest : CleanWords (t :: r) := fun u hu => h u (List.mem_cons_of_mem _ hu)
      show splitWs (w ++ ' ' :: joinSpace (t :: r)) = w :: t :: r
      rw [splitWs_append_space (by decide), splitWs_no_space hw.1 hw.2, ih hrest]
      rfl

theorem mem_joinSpace {ws : List (List Char)} {c : Char} (hc : c ∈ joinSpace ws) :
    c = ' ' ∨ ∃ w ∈ ws, c ∈ w := by
  induction ws with
  | nil => simp [joinSpace] at hc
  | cons w ws ih =>
    cases ws with
    | nil =>
      right
      exact ⟨w, List.mem_cons_self _ _, by simpa [joinSpace] using hc⟩
    | cons t r =>
      have : c ∈ w ++ ' ' :: joinSpace (t :: r) := hc
      rw [List.mem_append, List.mem_cons] at this
      rcases this with h | h | h
      · exact Or.inr ⟨w, List.mem_cons_self _ _, h⟩
      · exact Or.inl h
      · rcases ih h with h | ⟨u, hu, hcu⟩
        · exact Or.inl h
        · exact Or.inr ⟨u, List.mem_cons_of_mem _ hu, hcu⟩

/-! ### Claim C7: idempotence of text normalization -/

theorem preprocess_chars {t : List Char} {c : Char} (hc : c ∈ preprocess_text t) :
    pyLower c = c ∧ pyPunct c = false := by
  unfold preprocess_text at hc
  rcases mem_joinSpace hc with h | ⟨w, hw, hcw⟩
  · subst h
    exact ⟨by decide, by decide⟩
  · have := (splitWs_sub hw).2 c hcw
    rw [List.mem_filter] at this
    obtain ⟨⟨hmem, hpun⟩, _⟩ := this
    unfold pyLowerS at hmem
    rw [List.mem_map] at hmem
    obtain ⟨c0, _, hc0⟩ := hmem
    subst hc0
    exact ⟨pyLower_idem c0, by simpa using hpun⟩

theorem map_eq_self_of_mem {α : Type} {f : α → α} {l : List α} (h : ∀ a ∈ l, f a = a) :
    l.map f = l := by
  induction l with
  | nil => rfl
  | cons a t ih =>
    simp only [List.map_cons, h a (List.mem_cons_self _ _)]
    rw [ih (fun b hb => h b (List.mem_cons_of_mem _ hb))]

theorem filter_eq_self_of_mem {α : Type} {p : α → Bool} {l : List α}
    (h : ∀ a ∈ l, p a = true) : l.filter p = l := by
  induction l with
  | nil => rfl
  | cons a t ih =>
    rw [List.filter_cons, if_pos (h a (List.mem_cons_self _ _))]
    rw [ih (fun b hb => h b (List.mem_cons_of_mem _ hb))]

/-- Claim C7: text normalization (`RAGSystem.preprocess_text`) is idempotent:
normalizing an already-normalized string returns it unchanged, for every input. -/
theorem preprocess_text_idem (x : List Char) :
    preprocess_text (preprocess_text x) = preprocess_text x := by
  have hmap : pyLowerS (preprocess_text x) = preprocess_text x :=
    map_eq_self_of_mem (fun c hc => (preprocess_chars hc).1)
  have hfil : (preprocess_text x).filter (fun c => !pyPunct c) = preprocess_text x :=
    filter_eq_self_of_mem (fun c hc => by
      have := (preprocess_chars hc).2
      simp [this])
  conv_lhs => rw [preprocess_text, hmap, hfil]
  show joinSpace (splitWs (preprocess_text x)) = preprocess_text x
  rw [preprocess_text, splitWs_joinSpace (splitWs_clean _)]

/-! ### Sentence splitter: `re.split` plus the cleaning loop -/

/-- Sentence-terminator characters (Python `'.!?'`). -/
def isTermChar (c : Char) : Bool := c == '.' || c == '!' || c == '?'

/-- Python `s[-1] in '.!?'` (false on the empty string). -/
def lastIsTerm (s : List Char) : Bool :=
  match s.getLast? with
  | some c => isTermChar c
  | none => false

/-- Scanner for `re.split(r'(?<=[.!?])\s+', text)`: a separator is a maximal
whitespace run whose first character is preceded by one of `.!?`.  `skipping` is
true while consuming such a run; `acc` holds the current fragment reversed, so
`acc.head?` is the character just before the scan position. -/
def reSplitAux : Bool → List Char → List Char → List (List Char)
  | _, acc, [] => [acc.reverse]
  | false, acc, c :: cs =>
    if pySpace c && (match acc with | [] => false | p :: _ => isTermChar p) then
      acc.reverse :: reSplitAux true [] cs
    else
      reSplitAux false (c :: acc) cs
  | true, acc, c :: cs =>
    if pySpace c then reSplitAux true acc cs
    else reSplitAux false (c :: acc) cs

/-- `re.split(r'(?<=[.!?])\s+', text)` from `RAGSystem.split_into_sentences`. -/
def reSplit (text : List Char) : List (List Char) := reSplitAux false [] text

/-- The cleaning loop of `RAGSystem.split_into_sentences`: strip each fragment,
keep it when non-empty and (ending in `.!?` or longer than 5 words), and append
a period when the kept fragment lacks terminal punctuation. -/
def cleanSentences : List (List Char) → List (List Char)
  | [] => []
  | s0 :: rest =>
    let s := pyStrip s0
    if !s.isEmpty && (lastIsTerm s || wc s > 5) then
      (if !lastIsTerm s then s ++ ['.'] else s) :: cleanSentences rest
    else
      cleanSentences rest

/-- `RAGSystem.split_into_sentences`. -/
def split_into_sentences (text : List Char) : List (List Char) :=
  cleanSentences (reSplit text)

/-- Spec predicate (claim C5): a trimmed fragment is kept iff it is non-empty and
its last character is one of `.!?` or it has more than 5 words. -/
def keepFragment (s : List Char) : Bool := !s.isEmpty && (lastIsTerm s || wc s > 5)

/-- Spec transform (claim C5): a kept fragment lacking terminal punctuation has a
period appended. -/
def fixFragment (s : List Char) : List Char := if lastIsTerm s then s else s ++ ['.']

theorem cleanSentences_eq (l : List (List Char)) :
    cleanSentences l = ((l.map pyStrip).filter keepFragment).map fixFragment := by
  induction l with
  | nil => rfl
  | cons s0 rest ih =>
    show cleanSentences (s0 :: rest) = _
    rw [cleanSentences]
    simp only [List.map_cons, List.filter_cons]
    cases hk : keepFragment (pyStrip s0) with
    | false =>
      have : (!(pyStrip s0).isEmpty && (lastIsTerm (pyStrip s0) || wc (pyStrip s0) > 5))
          = false := hk
      simp only [this, Bool.false_eq_true, if_false, ih]
    | true =>
      have : (!(pyStrip s0).isEmpty && (lastIsTerm (pyStrip s0) || wc (pyStrip s0) > 5))
          = true := hk
      simp only [this, if_true, List.map_cons, ih]
      cases ht : lastIsTerm (pyStrip s0) with
      | false => simp [fixFragment, ht]
      | true => simp [fixFragment, ht]

/-- Claim C5: the sentence splitter keeps a trimmed fragment iff it is non-empty and
(ends in one of `.!?` or has more than 5 words); kept fragments lacking terminal
punctuation get a period appended; order matches source order. -/
theorem split_into_sentences_spec (text : List Char) :
    split_into_sentences text
      = (((reSplit text).map pyStrip).filter keepFragment).map fixFragment :=
  cleanSentences_eq (reSplit text)

/-! ### Passage segmenter -/

/-- Sum of the word counts of a group of sentences. -/
def sumWc (g : List (List Char)) : Nat := (g.map wc).sum

/-- The accumulation loop of `RAGSystem.create_passages`: `cur` is the current
passage (its list of sentences, in order), `cnt` the running word count. -/
def cpAux (maxW : Nat) : List (List Char) → List (List Char) → Nat → List (List Char)
  | [], cur, _ => if cur.isEmpty then [] else [joinSpace cur]
  | s :: rest, cur, cnt =>
    if cnt + wc s > maxW ∧ cur ≠ [] then
      joinSpace cur :: cpAux maxW rest [s] (wc s)
    else
      cpAux maxW rest (cur ++ [s]) (cnt + wc s)

/-- `RAGSystem.create_passages` (its `filename` argument is unused by the source). -/
def create_passages (maxW : Nat) (text : List Char) : List (List Char) :=
  cpAux maxW (split_into_sentences text) [] 0

theorem sumWc_nil : sumWc [] = 0 := rfl

theorem sumWc_cons (s : List Char) (g : List (List Char)) :
    sumWc (s :: g) = wc s + sumWc g := by
  simp [sumWc]

theorem sumWc_append (a b : List (List Char)) : sumWc (a ++ b) = sumWc a + sumWc b := by
  simp [sumWc]

theorem joinSpace_cons_of_ne (a : List Char) {l : List (List Char)} (h : l ≠ []) :
    joinSpace (a :: l) = a ++ ' ' :: joinSpace l := by
  cases l with
  | nil => exact absurd rfl h
  | cons t r => rfl

theorem wc_joinSpace (g : List (List Char)) : wc (joinSpace g) = sumWc g := by
  induction g with
  | nil => rfl
  | cons s r ih =>
    cases r with
    | nil => simp [joinSpace, sumWc]
    | cons t q =>
      rw [joinSpace_cons_of_ne s (by simp), wc_append_space (by decide), ih, sumWc_cons]
      simp [sumWc]

theorem joinSpace_append {g1 g2 : List (List Char)} (h1 : g1 ≠ []) (h2 : g2 ≠ []) :
    joinSpace (g1 ++ g2) = joinSpace g1 ++ ' ' :: joinSpace g2 := by
  induction g1 with
  | nil => exact absurd rfl h1
  | cons a t ih =>
    cases t with
    | nil =>
      rw [List.singleton_append, joinSpace_cons_of_ne a h2]
      rfl
    | cons b r =>
      rw [List.cons_append, joinSpace_cons_of_ne a (by simp),
        joinSpace_cons_of_ne a (List.cons_ne_nil b r), ih (List.cons_ne_nil b r),
        List.append_assoc]
      rfl

theorem cpAux_ne_nil (maxW : Nat) :
    ∀ (sents cur : List (List Char)) (cnt : Nat), cur ≠ [] → cpAux maxW sents cur cnt ≠ [] := by
  intro sents
  induction sents with
  | nil =>
    intro cur cnt h
    rw [cpAux]
    simp [h]
  | cons s rest ih =>
    intro cur cnt h
    rw [cpAux]
    by_cases hc : cnt + wc s > maxW ∧ cur ≠ []
    · rw [if_pos hc]
      simp
    · rw [if_neg hc]
      exact ih _ _ (by simp)

theorem cpAux_join (maxW : Nat) :
    ∀ (sents cur : List (List Char)) (cnt : Nat),
      joinSpace (cpAux maxW sents cur cnt) = joinSpace (cur ++ sents) := by
  intro sents
  induction sents with
  | nil =>
    intro cur cnt
    rw [cpAux, List.append_nil]
    cases cur with
    | nil => rfl
    | cons a t => simp [joinSpace]
  | cons s rest ih =>
    intro cur cnt
    rw [cpAux]
    by_cases hc : cnt + wc s > maxW ∧ cur ≠ []
    · rw [if_pos hc]
      rw [joinSpace_cons_of_ne _ (cpAux_ne_nil maxW rest [s] (wc s) (by simp)), ih]
      rw [joinSpace_append hc.2 (List.cons_ne_nil s rest)]
      rfl
    · rw [if_neg hc, ih, List.append_assoc]
      rfl

/-- Claim C8: joining (with single spaces) all passages produced by the segmenter
reproduces exactly the join of the sentence splitter's output: no sentence content
is dropped or reordered by `RAGSystem.create_passages`. -/
theorem create_passages_complete (maxW : Nat) (text : List Char) :
    joinSpace (create_passages maxW text) = joinSpace (split_into_sentences text) := by
  rw [create_passages, cpAux_join]
  rfl

/-- A group of sentences forming one passage is within bounds when its total word
count is at most `maxW`, or it is a single oversize sentence. -/
def OkGroup (maxW : Nat) (g : List (List Char)) : Prop :=
  sumWc g ≤ maxW ∨ ∃ s, g = [s] ∧ maxW < wc s

theorem cpAux_bound (maxW : Nat) :
    ∀ (sents cur : List (List Char)) (cnt : Nat), cnt = sumWc cur →
      (cur ≠ [] → OkGroup maxW cur) →
      ∀ p ∈ cpAux maxW sents cur cnt,
        wc p ≤ maxW ∨ ∃ s ∈ cur ++ sents, p = s ∧ maxW < wc s := by
  intro sents
  induction sents with
  | nil =>
    intro cur cnt hcnt hok p hp
    rw [cpAux] at hp
    cases cur with
    | nil => simp at hp
    | cons a t =>
      simp only [List.isEmpty_cons, Bool.false_eq_true, if_false, List.mem_singleton] at hp
      subst hp
      rcases hok (by simp) with h | ⟨s, hs, hws⟩
      · left
        rw [wc_joinSpace]
        exact h
      · right
        refine ⟨s, ?_, ?_, hws⟩
        · rw [List.append_nil, hs]
          simp
        · rw [hs]
          rfl
  | cons s rest ih =>
    intro cur cnt hcnt hok p hp
    rw [cpAux] at hp
    by_cases hc : cnt + wc s > maxW ∧ cur ≠ []
    · rw [if_pos hc] at hp
      rcases List.mem_cons.mp hp with hp | hp
      · subst hp
        rcases hok hc.2 with h | ⟨u, hu, hwu⟩
        · left
          rw [wc_joinSpace]
          exact h
        · right
          refine ⟨u, ?_, ?_, hwu⟩
          · rw [hu]
            simp
          · rw [hu]
            rfl
      · have hokS : ([s] : List (List Char)) ≠ [] → OkGroup maxW [s] := by
          intro _
          by_cases hws : wc s ≤ maxW
          · left
            rw [sumWc_cons, sumWc_nil]
            omega
          · right
            exact ⟨s, rfl, by omega⟩
        rcases ih [s] (wc s) (by rw [sumWc_cons, sumWc_nil]; omega) hokS p hp with h | ⟨u, hu, he, hw⟩
        · left
          exact h
        · right
          refine ⟨u, ?_, he, hw⟩
          rcases List.mem_append.mp hu with hu | hu
          · rw [List.mem_singleton] at hu
            subst hu
            exact List.mem_append_right _ (List.mem_cons_self _ _)
          · exact List.mem_append_right _ (List.mem_cons_of_mem _ hu)
    · rw [if_neg hc] at hp
      have hcnt' : cnt + wc s = sumWc (cur ++ [s]) := by
        rw [sumWc_append, sumWc_cons, sumWc_nil, hcnt]
        omega
      have hok' : (cur ++ [s]) ≠ [] → OkGroup maxW (cur ++ [s]) := by
        intro _
        by_cases hcur : cur = []
        · subst hcur
          by_cases hws : wc s ≤ maxW
          · left
            rw [List.nil_append, sumWc_cons, sumWc_nil]
            omega
          · right
            exact ⟨s, by rw [List.nil_append], by omega⟩
        · left
          have hle : ¬(cnt + wc s > maxW) := fun hgt => hc ⟨hgt, hcur⟩
          rw [← hcnt']
          omega
      rcases ih (cur ++ [s]) (cnt + wc s) hcnt' hok' p hp with h | ⟨u, hu, he, hw⟩
      · left
        exact h
      · right
        refine ⟨u, ?_, he, hw⟩
        rw [List.append_assoc] at hu
        simpa using hu

/-- Claim C6: every passage produced by `RAGSystem.create_passages` has word count
at most `maxW`, except a passage that is a single sentence (from the splitter's
output) whose own word count exceeds `maxW`. -/
theorem create_passages_bound (maxW : Nat) (text : List Char) (p : List Char)
    (hp : p ∈ create_passages maxW text) :
    wc p ≤ maxW ∨ ∃ s ∈ split_into_sentences text, p = s ∧ maxW < wc s := by
  have := cpAux_bound maxW (split_into_sentences text) [] 0 rfl (by intro h; exact absurd rfl h)
    p hp
  simpa using this

/-! ### Retrieval: `np.argsort`, Python slicing, top-k selection -/

/-- Ascending order used to model `np.argsort` on the similarity vector: by
similarity, equal similarities by ascending index (a stable ascending argsort). -/
def ascLe (sims : List ℚ) (i j : ℕ) : Prop :=
  sims.getD i 0 < sims.getD j 0 ∨ (sims.getD i 0 = sims.getD j 0 ∧ i ≤ j)

instance ascLe_decidable (sims : List ℚ) : DecidableRel (ascLe sims) := fun _ _ =>
  inferInstanceAs (Decidable (_ ∨ _))

instance ascLe_total (sims : List ℚ) : IsTotal ℕ (ascLe sims) := by
  constructor
  intro i j
  rcases lt_trichotomy (sims.getD i 0) (sims.getD j 0) with h | h | h
  · exact Or.inl (Or.inl h)
  · rcases Nat.le_total i j with hij | hij
    · exact Or.inl (Or.inr ⟨h, hij⟩)
    · exact Or.inr (Or.inr ⟨h.symm, hij⟩)
  · exact Or.inr (Or.inl h)

instance ascLe_trans (sims : List ℚ) : IsTrans ℕ (ascLe sims) := by
  constructor
  intro a b c hab hbc
  rcases hab with h1 | ⟨e1, le1⟩ <;> rcases hbc with h2 | ⟨e2, le2⟩
  · exact Or.inl (h1.trans h2)
  · exact Or.inl (by rwa [← e2])
  · exact Or.inl (by rwa [e1])
  · exact Or.inr ⟨e1.trans e2, le1.trans le2⟩

/-- Model of `np.argsort(similarities)`: indices `0..n-1` sorted ascending by
similarity, ties in ascending index order (numpy's argsort behaves stably on
the small arrays sorted here, and the spec's determinism property requires it). -/
def argsort (sims : List ℚ) : List ℕ :=
  List.insertionSort (ascLe sims) (List.range sims.length)

/-- Python slice `arr[i:]` for an arbitrary (possibly negative) integer `i`. -/
def pySliceFrom {α : Type} (i : ℤ) (l : List α) : List α :=
  if 0 ≤ i then l.drop i.toNat else l.drop (l.length - (-i).toNat)

/-- Lines 137-147 of `RAGSystem.retrieve`, given the cosine-similarity row
`similarities`: `top_k_indices = np.argsort(similarities)[-k:][::-1]`, then each
selected index is paired with its score (a result's passage is `passages[idx]`,
identified here by the index `idx`). -/
def retrieveSel (sims : List ℚ) (k : ℤ) : List (ℕ × ℚ) :=
  ((pySliceFrom (-k) (argsort sims)).reverse).map (fun idx => (idx, sims.getD idx 0))

/-- A passage with its source document and derived id (class `Passage`). -/
structure Passage where
  text : List Char
  source : List Char
  passage_id : List Char

/-- The part of `RAGSystem`'s state that retrieval depends on: the passage list and
the fitted TF-IDF matrix, `none` until `index_passages` has fit the vectorizer.
The sklearn vector space is abstract (type parameter `V`). -/
structure RAGState (V : Type) where
  passages : List Passage
  passageVectors : Option V

/-- `RAGSystem.index_passages`: with an empty passage list it prints and returns,
leaving the vectorizer unfit and `passage_vectors` unset; otherwise it fits TF-IDF
(abstracted as `fit`) over the preprocessed passage texts. -/
def index_passages {V : Type} (fit : List (List Char) → V) (st : RAGState V) : RAGState V :=
  if st.passages.isEmpty then st
  else { st with
    passageVectors := some (fit (st.passages.map (fun p => preprocess_text p.text))) }

/-- `RAGSystem.retrieve`: preprocess the query, vectorize it and take the cosine
similarities against the fitted matrix (the sklearn part abstracted as
`similarityOf`), then select the top-k.  When the vectorizer was never fit (zero
passages indexed), the `transform` call raises sklearn's `NotFittedError`,
modelled as `Except.error ()`. -/
def retrieve {V : Type} (similarityOf : V → List Char → List ℚ) (st : RAGState V)
    (query : List Char) (k : ℤ) : Except Unit (List (ℕ × ℚ)) :=
  match st.passageVectors with
  | none => Except.error ()
  | some v => Except.ok (retrieveSel (similarityOf v (preprocess_text query)) k)

/-- The ranking order claim C1 states: descending similarity, ties broken by
ascending original passage index (lower index wins). -/
def claimLe (sims : List ℚ) (i j : ℕ) : Prop :=
  sims.getD j 0 < sims.getD i 0 ∨ (sims.getD i 0 = sims.getD j 0 ∧ i ≤ j)

instance claimLe_decidable (sims : List ℚ) : DecidableRel (claimLe sims) := fun _ _ =>
  inferInstanceAs (Decidable (_ ∨ _))

/-- Retrieval output as claim C1 states it: the first `k` indices in the order
`claimLe` (descending score, ties by ascending index), paired with their scores. -/
def retrieveClaimed (sims : List ℚ) (k : ℤ) : List (ℕ × ℚ) :=
  ((List.insertionSort (claimLe sims) (List.range sims.length)).take k.toNat).map
    (fun idx => (idx, sims.getD idx 0))

/-- The ranking order the code actually produces: descending similarity, ties
broken by DESCENDING original passage index (higher index wins). -/
def descLe (sims : List ℚ) (i j : ℕ) : Prop :=
  sims.getD j 0 < sims.getD i 0 ∨ (sims.getD i 0 = sims.getD j 0 ∧ j ≤ i)

instance descLe_decidable (sims : List ℚ) : DecidableRel (descLe sims) := fun _ _ =>
  inferInstanceAs (Decidable (_ ∨ _))

instance descLe_total (sims : List ℚ) : IsTotal ℕ (descLe sims) := by
  constructor
  intro i j
  rcases lt_trichotomy (sims.getD i 0) (sims.getD j 0) with h | h | h
  · exact Or.inr (Or.inl h)
  · rcases Nat.le_total i j with hij | hij
    · exact Or.inr (Or.inr ⟨h.symm, hij⟩)
    · exact Or.inl (Or.inr ⟨h, hij⟩)
  · exact Or.inl (Or.inl h)

instance descLe_trans (sims : List ℚ) : IsTrans ℕ (descLe sims) := by
  constructor
  intro a b c hab hbc
  rcases hab with h1 | ⟨e1, le1⟩ <;> rcases hbc with h2 | ⟨e2, le2⟩
  · exact Or.inl (h2.trans h1)
  · exact Or.inl (by rwa [e2] at h1)
  · exact Or.inl (by rw [e1]; exact h2)
  · exact Or.inr ⟨e1.trans e2, le2.trans le1⟩

instance descLe_antisymm (sims : List ℚ) : IsAntisymm ℕ (descLe sims) := by
  constructor
  intro a b hab hba
  rcases hab with h1 | ⟨e1, le1⟩ <;> rcases hba with h2 | ⟨e2, le2⟩
  · exact absurd (h1.trans h2) (lt_irrefl _)
  · exact absurd (by rwa [e2] at h1 : sims.getD a 0 < sims.getD a 0) (lt_irrefl _)
  · exact absurd (by rwa [e1] at h2 : sims.getD b 0 < sims.getD b 0) (lt_irrefl _)
  · exact Nat.le_antisymm le2 le1

/-- Descending stable argsort: what reversing the code's ascending argsort yields. -/
def argsortDesc (sims : List ℚ) : List ℕ :=
  List.insertionSort (descLe sims) (List.range sims.length)

/-- Retrieval output as the code produces it for positive `k`: the first `k`
indices in descending score order with ties by descending index. -/
def retrieveAmended (sims : List ℚ) (k : ℤ) : List (ℕ × ℚ) :=
  ((argsortDesc sims).take k.toNat).map (fun idx => (idx, sims.getD idx 0))

theorem ascLe_flip_imp {sims : List ℚ} {i j : ℕ} (h : ascLe sims i j) : descLe sims j i := by
  rcases h with h | ⟨e, le⟩
  · exact Or.inl h
  · exact Or.inr ⟨e.symm, le⟩

theorem argsort_length (sims : List ℚ) : (argsort sims).length = sims.length := by
  have := (List.perm_insertionSort (ascLe sims) (List.range sims.length)).length_eq
  simpa [argsort] using this

theorem argsortDesc_length (sims : List ℚ) : (argsortDesc sims).length = sims.length := by
  have := (List.perm_insertionSort (descLe sims) (List.range sims.length)).length_eq
  simpa [argsortDesc] using this

theorem argsort_reverse (sims : List ℚ) : (argsort sims).reverse = argsortDesc sims := by
  apply List.eq_of_perm_of_sorted (r := descLe sims)
  · exact ((List.reverse_perm _).trans (List.perm_insertionSort _ _)).trans
      (List.perm_insertionSort _ _).symm
  · show ((argsort sims).reverse).Pairwise (descLe sims)
    rw [List.pairwise_reverse]
    exact (List.sorted_insertionSort (ascLe sims) (List.range sims.length)).imp
      (fun h => ascLe_flip_imp h)
  · exact List.sorted_insertionSort _ _

/-- Claim C1 (amended): for every similarity row and every `k > 0`, the selection
step of `RAGSystem.retrieve` returns the `k` passages with the `k` highest
similarities (all of them if fewer than `k` exist), ordered by descending score,
but ties between equal scores are broken by DESCENDING original passage index
(higher index wins), not ascending. -/
theorem retrieve_topk (sims : List ℚ) (k : ℤ) (hk : 0 < k) :
    retrieveSel sims k = retrieveAmended sims k := by
  unfold retrieveSel retrieveAmended
  congr 1
  rw [pySliceFrom, if_neg (by omega), List.reverse_drop, argsort_reverse, neg_neg,
    argsort_length]
  rw [List.take_eq_take]
  have h2 := argsortDesc_length sims
  omega

/-- Witness for the amended C1 theorem at a concrete input. -/
theorem retrieve_topk_witness :
    (0 : ℤ) < 2 ∧ retrieveSel [1, 2, 1] 2 = retrieveAmended [1, 2, 1] 2 :=
  ⟨by decide, retrieve_topk [1, 2, 1] 2 (by decide)⟩

/-- Counterexample to claim C1 as stated: with two passages of equal similarity
and `k = 1`, the code returns passage index 1, while the claimed ascending-index
tie-break would return passage index 0. -/
theorem retrieve_topk_counterexample :
    retrieveSel [1, 1] 1 ≠ retrieveClaimed [1, 1] 1 := by decide

/-- Claim C2 (amended): a call to retrieve with `k ≤ 0` does NOT return an empty
sequence: because of Python slicing, `argsort(sims)[-k:]` with `k ≤ 0` keeps all
but the `|k|` lowest-scoring entries, so retrieve returns the `n - |k|`
highest-scoring passages in descending order (all `n` of them when `k = 0`). -/
theorem retrieve_k_nonpos (sims : List ℚ) (k : ℤ) (hk : k ≤ 0) :
    retrieveSel sims k
      = ((argsortDesc sims).take (sims.length - (-k).toNat)).map
          (fun idx => (idx, sims.getD idx 0)) := by
  unfold retrieveSel
  congr 1
  rw [pySliceFrom, if_pos (by omega), List.reverse_drop, argsort_reverse, argsort_length]

/-- Witness for the amended C2 theorem at a concrete input. -/
theorem retrieve_k_nonpos_witness :
    (0 : ℤ) ≤ 0 ∧ retrieveSel [1, 2] 0
      = ((argsortDesc [1, 2]).take (([1, 2] : List ℚ).length - (-(0 : ℤ)).toNat)).map
          (fun idx => (idx, ([1, 2] : List ℚ).getD idx 0)) :=
  ⟨by decide, retrieve_k_nonpos [1, 2] 0 (by decide)⟩

instance exceptDecidableEq {ε α : Type} [DecidableEq ε] [DecidableEq α] :
    DecidableEq (Except ε α) := fun x y =>
  match x, y with
  | .error e, .error f =>
    if h : e = f then isTrue (by rw [h]) else isFalse (fun hc => h (Except.error.inj hc))
  | .ok a, .ok b =>
    if h : a = b then isTrue (by rw [h]) else isFalse (fun hc => h (Except.ok.inj hc))
  | .error _, .ok _ => isFalse (fun hc => Except.noConfusion hc)
  | .ok _, .error _ => isFalse (fun hc => Except.noConfusion hc)

/-- Counterexample to claim C2 as stated: on a fitted index with one passage,
`retrieve(q, 0)` returns that passage (`argsort[-0:]` is the whole array), not
the empty list. -/
theorem retrieve_k0_counterexample :
    retrieve (fun v _ => v) ⟨[⟨[], [], []⟩], some [(1 : ℚ)]⟩ [] 0 ≠ Except.ok [] := by
  decide

/-- Claim C3 (amended): with zero passages indexed, `index_passages` returns
without fitting the vectorizer, and a subsequent retrieve raises (sklearn
`NotFittedError` from `transform`); it does not return an empty result set. -/
theorem retrieve_unfit_raises {V : Type} (fit : List (List Char) → V)
    (similarityOf : V → List Char → List ℚ) (query : List Char) (k : ℤ) :
    retrieve similarityOf (index_passages fit ⟨[], none⟩) query k = Except.error () := rfl

/-- Counterexample to claim C3 as stated: after indexing zero passages, retrieve
does not return an empty result set (it raises). -/
theorem retrieve_unfit_counterexample :
    retrieve (fun v _ => v) (index_passages (fun _ => ([] : List ℚ)) ⟨[], none⟩) [] 3
      ≠ Except.ok [] := by decide

/-! ### Keyword extraction -/

/-- The fixed stop-word set of `RAGSystem.extract_keywords`. -/
def stopWords : List (List Char) :=
  [String.toList "what", String.toList "is", String.toList "the", String.toList "how",
   String.toList "do", String.toList "i", String.toList "does", String.toList "have",
   String.toList "for", String.toList "many", String.toList "long", String.toList "to",
   String.toList "a", String.toList "an", String.toList "are", String.toList "get",
   String.toList "can", String.toList "my", String.toList "schedule", String.toList "take"]

/-- `RAGSystem.extract_keywords`: lowercase the query and split it on whitespace;
keep the words whose (re-)lowercased form is not a stop word, and strip punctuation
from each kept word.  Note the stop-word test happens BEFORE punctuation
stripping, exactly as in the source list comprehension. -/
def extract_keywords (query : List Char) : List (List Char) :=
  ((splitWs (pyLowerS query)).filter
    (fun w => !(stopWords.contains (pyLowerS w)))).map pyStripPunct

/-- Keyword derivation exactly as claim C10 words it: split the query on
whitespace, strip punctuation from each word, lowercase it, and then discard
every word that is in the stop-word set. -/
def keywordsClaimed (query : List Char) : List (List Char) :=
  ((splitWs query).map (fun w => pyLowerS (pyStripPunct w))).filter
    (fun w => !(stopWords.contains w))

/-- Counterexample to claim C10 as stated: for the query `"what?"` the code keeps
the keyword `"what"` (the stop-word test sees the unstripped `"what?"`), while the
claimed strip-then-discard pipeline would discard it. -/
theorem extract_keywords_counterexample :
    extract_keywords (String.toList "what?")
      ≠ keywordsClaimed (String.toList "what?") := by decide

/-- Claim C10 (amended): keywords are obtained by splitting the lowercased query
on whitespace, discarding every word that is a stop word BEFORE punctuation
stripping, and stripping punctuation from each surviving word; in particular a
stop word written with trailing punctuation is kept, in stripped form. -/
theorem extract_keywords_amended (query : List Char) :
    extract_keywords query
      = (splitWs (pyLowerS query)).filterMap (fun w =>
          if stopWords.contains (pyLowerS w) then none else some (pyStripPunct w)) := by
  unfold extract_keywords
  induction splitWs (pyLowerS query) with
  | nil => rfl
  | cons w l ih =>
    rw [List.filter_cons, List.filterMap_cons]
    cases h : stopWords.contains (pyLowerS w) with
    | true => simp only [h, Bool.not_true, Bool.false_eq_true, if_false, ih, if_true]
    | false => simp only [h, Bool.not_false, if_true, Bool.false_eq_true, if_false,
        List.map_cons, ih]

/-! ### Sentence relevance scoring -/

/-- Python substring test `needle in haystack` on strings. -/
def isSubstr (needle : List Char) : List Char → Bool
  | [] => needle.isEmpty
  | c :: t => needle.isPrefixOf (c :: t) || isSubstr needle t

/-- `RAGSystem.score_sentence_relevance`, loop by loop: +2 per keyword occurring
in the lowercased sentence; +1 per query word longer than 3 characters occurring
in the lowercased sentence; -2 when the sentence has more than 50 words; +1 when
the sentence contains a digit (`re.search(r'\d+', sentence)`). -/
def score_sentence_relevance (sentence : List Char) (keywords : List (List Char))
    (query_lower : List Char) : ℤ :=
  let sentence_lower := pyLowerS sentence
  let score1 : ℤ :=
    keywords.foldl (fun sc k => if isSubstr k sentence_lower then sc + 2 else sc) 0
  let score2 : ℤ :=
    (splitWs query_lower).foldl
      (fun sc w => if 3 < w.length ∧ isSubstr w sentence_lower then sc + 1 else sc) score1
  let score3 : ℤ := if 50 < wc sentence then score2 - 2 else score2
  if sentence.any pyDigit then score3 + 1 else score3

theorem foldl_if_add {α : Type} (p : α → Prop) [DecidablePred p] (c : ℤ) :
    ∀ (l : List α) (init : ℤ),
      l.foldl (fun sc a => if p a then sc + c else sc) init
        = init + c * ((l.filter (fun a => decide (p a))).length : ℤ) := by
  intro l
  induction l with
  | nil => intro init; simp
  | cons a t ih =>
    intro init
    rw [List.foldl_cons, List.filter_cons]
    by_cases h : p a
    · rw [if_pos h, ih]
      have hd : decide (p a) = true := decide_eq_true h
      rw [hd, if_pos rfl, List.length_cons]
      push_cast
      ring
    · rw [if_neg h, ih]
      have hd : decide (p a) = false := decide_eq_false h
      rw [hd]
      simp

theorem decide_beq_true (b : Bool) : decide (b = true) = b := by cases b <;> rfl

/-- Claim C9: the relevance score equals exactly two points per keyword occurring
as a substring of the lowercased sentence, plus one point per query word longer
than 3 characters occurring as a substring of the lowercased sentence, minus two
when the sentence has more than 50 words, plus one when it contains a digit. -/
theorem score_sentence_relevance_formula (sentence : List Char)
    (keywords : List (List Char)) (query_lower : List Char) :
    score_sentence_relevance sentence keywords query_lower
      = 2 * ((keywords.filter (fun k => isSubstr k (pyLowerS sentence))).length : ℤ)
        + (((splitWs query_lower).filter
            (fun w => decide (3 < w.length) && isSubstr w (pyLowerS sentence))).length : ℤ)
        - (if 50 < wc sentence then 2 else 0)
        + (if sentence.any pyDigit then 1 else 0) := by
  unfold score_sentence_relevance
  dsimp only
  rw [foldl_if_add (fun k => isSubstr k (pyLowerS sentence) = true) 2,
    foldl_if_add (fun w => 3 < w.length ∧ isSubstr w (pyLowerS sentence) = true) 1]
  simp only [Bool.decide_and, decide_beq_true]
  split_ifs <;> push_cast <;> ring

/-! ### Answer generation -/

/-- One retrieval result as `RAGSystem.retrieve` builds them: a passage together
with its cosine-similarity score. -/
structure RetrievalResult where
  passage : Passage
  score : ℚ

/-- A scored candidate sentence inside `RAGSystem.generate_answer`. -/
structure Candidate where
  sentence : List Char
  score : ℤ
  source : List Char
  passage_score : ℚ

/-- The canned no-answer string of `RAGSystem.generate_answer`
(the apostrophe of `couldn't` is `Char.ofNat 39`). -/
def noInfoAnswer : List Char :=
  String.toList "I couldn" ++ Char.ofNat 39 :: String.toList
    "t find relevant information to answer this question."

/-- The inner candidate-collection loop of `RAGSystem.generate_answer` for one
retrieved result: sentences shorter than 5 words are skipped, and a sentence
becomes a candidate when its relevance score is positive. -/
def candidatesFor (keywords : List (List Char)) (query_lower : List Char)
    (result : RetrievalResult) : List Candidate :=
  (split_into_sentences result.passage.text).filterMap (fun s =>
    if wc s < 5 then none
    else if 0 < score_sentence_relevance s keywords query_lower then
      some ⟨s, score_sentence_relevance s keywords query_lower,
        result.passage.source, result.score⟩
    else none)

/-- Sort order of `candidate_sentences.sort(key=lambda x: (x[...], x[...]),
reverse=True)`: non-strictly descending lexicographic on (relevance score,
passage score).  Python's sort is stable; insertion sort under this non-strict
order reproduces it. -/
def candGe (a b : Candidate) : Prop :=
  b.score < a.score ∨ (b.score = a.score ∧ b.passage_score ≤ a.passage_score)

instance candGe_decidable : DecidableRel candGe := fun _ _ =>
  inferInstanceAs (Decidable (_ ∨ _))

/-- `RAGSystem.generate_answer`.  The first branch is the low-confidence guard;
otherwise candidates are collected from all retrieved passages, the best (by
`candGe`) is chosen, with a fallback to the first sentence of the top passage
(or its whole text) when no candidate scored positively; the chosen sentence is
stripped and terminated with a period if needed.  (The `match` arm for an empty
sorted list is unreachable: sorting a non-empty candidate list is non-empty.) -/
def generate_answer (query : List Char) (retrieved : List RetrievalResult) :
    List Char × List (List Char) :=
  match retrieved with
  | [] => (noInfoAnswer, [])
  | top :: _ =>
    if top.score < 1 / 100 then (noInfoAnswer, [])
    else
      let keywords := extract_keywords query
      let query_lower := pyLowerS query
      let candidates := retrieved.flatMap (candidatesFor keywords query_lower)
      let chosen : List Char × List Char :=
        if candidates.isEmpty then
          ((split_into_sentences top.passage.text).headD top.passage.text,
            top.passage.source)
        else
          match List.insertionSort candGe candidates with
          | [] => (top.passage.text, top.passage.source)
          | best :: _ => (best.sentence, best.source)
      let bs := pyStrip chosen.1
      ((if lastIsTerm bs then bs else bs ++ ['.']), [chosen.2])

/-- Claim C4: whenever the retrieval-result list is empty, or its top result's
score is below the 0.01 confidence floor, `generate_answer` returns the canned
no-relevant-information sentence together with an empty source list. -/
theorem generate_answer_low_confidence (query : List Char)
    (retrieved : List RetrievalResult)
    (h : ∀ top, retrieved.head? = some top → top.score < 1 / 100) :
    generate_answer query retrieved = (noInfoAnswer, []) := by
  cases retrieved with
  | nil => rfl
  | cons top rest =>
    have htop := h top rfl
    unfold generate_answer
    dsimp only
    rw [if_pos htop]

/-- Witness for the C4 theorem at a concrete input: one retrieved passage with
similarity score 0. -/
theorem generate_answer_low_confidence_witness :
    (∀ top, ([⟨⟨[], [], []⟩, 0⟩] : List RetrievalResult).head? = some top →
        top.score < 1 / 100)
      ∧ generate_answer [] [⟨⟨[], [], []⟩, 0⟩] = (noInfoAnswer, []) := by
  have h : ∀ top, ([⟨⟨[], [], []⟩, 0⟩] : List RetrievalResult).head? = some top →
      top.score < 1 / 100 := by
    intro top htop
    have : top = ⟨⟨[], [], []⟩, 0⟩ := by
      simpa using htop.symm
    rw [this]
    norm_num
  exact ⟨h, generate_answer_low_confidence [] [⟨⟨[], [], []⟩, 0⟩] h⟩

/-- Witness for the C6 theorem at a concrete input: with `max_words = 2`, the
four-word sentence becomes a single oversize passage. -/
theorem create_passages_bound_witness :
    (String.toList "alpha beta gamma delta.")
        ∈ create_passages 2 (String.toList "alpha beta gamma delta.")
      ∧ (wc (String.toList "alpha beta gamma delta.") ≤ 2
        ∨ ∃ s ∈ split_into_sentences (String.toList "alpha beta gamma delta."),
            String.toList "alpha beta gamma delta." = s ∧ 2 < wc s) :=
  ⟨by decide, create_passages_bound 2 _ _ (by decide)⟩
